import Mathlib

/-!
Verification of the `byte_endian` library: endianness-tagged integer wrapper
types (`BigEndian<T>` / `LittleEndian<T>`) over an `Endian` capability trait
implemented for the fixed-width unsigned integers `u8, u16, u32, u64, u128,
usize`.

Embedding choices:
* A width is its byte count `w : Nat`; a value of that width is a `Nat`
  strictly below `256 ^ w`.  The built-in widths are `w ∈ [1, 2, 4, 8, 16]`
  plus the pointer width (8 bytes on the 64-bit targets the crate is built
  for); theorems are proved for every `w`, which covers them all.
* The host (compilation target) byte order is a parameter `host : ByteOrder`,
  mirroring the `cfg(target_endian)` selection inside Rust's primitive
  `to_be`, `to_le`, `from_be`, `from_le` functions, to which the crate's
  `impl Endian for $width` delegates.
* Byte reversal (`swap_bytes`) is modelled by decomposing a value into its
  `w` bytes, least significant first, reversing the list, and reassembling.
-/

namespace ByteEndian

/-- Byte order of the host machine, the order selected by Rust's
`cfg(target_endian = ...)` inside the primitive conversion functions. -/
inductive ByteOrder where
  | big : ByteOrder
  | little : ByteOrder
deriving DecidableEq

/-- The bytes of `x` viewed as a `w`-byte unsigned integer, least significant
byte first (always exactly `w` entries). -/
def toBytes : Nat → Nat → List Nat
  | 0, _ => []
  | w + 1, x => x % 256 :: toBytes w (x / 256)

/-- Reassemble an unsigned integer from its bytes, least significant first. -/
def fromBytes : List Nat → Nat
  | [] => 0
  | b :: bs => b + 256 * fromBytes bs

/-- Reversal of the byte sequence of a `w`-byte unsigned integer: the model of
the width-specific `swap_bytes` primitive that each `impl Endian for $width`
ultimately delegates to. -/
def swapBytes (w x : Nat) : Nat := fromBytes (toBytes w x).reverse

/-- The byte counts of the widths the crate implements `Endian` for:
`u8, u16, u32, u64, u128` and `usize` (8 bytes on a 64-bit target). -/
def supportedWidths : List Nat := [1, 2, 4, 8, 16, 8]

theorem toBytes_length (w x : Nat) : (toBytes w x).length = w := by
  induction w generalizing x with
  | zero => rfl
  | succ w ih => simp [toBytes, ih]

theorem toBytes_lt (w x : Nat) : ∀ b ∈ toBytes w x, b < 256 := by
  induction w generalizing x with
  | zero => simp [toBytes]
  | succ w ih =>
    simp only [toBytes, List.mem_cons]
    rintro b (rfl | hb)
    · exact Nat.mod_lt _ (by norm_num)
    · exact ih _ _ hb

theorem fromBytes_toBytes (w x : Nat) (h : x < 256 ^ w) :
    fromBytes (toBytes w x) = x := by
  induction w generalizing x with
  | zero =>
    have hx : x = 0 := by simpa using h
    simp [hx, toBytes, fromBytes]
  | succ w ih =>
    have hx : x / 256 < 256 ^ w := by
      rw [Nat.div_lt_iff_lt_mul (by norm_num)]
      calc x < 256 ^ (w + 1) := h
        _ = 256 ^ w * 256 := by ring
    simp [toBytes, fromBytes, ih _ hx, Nat.mod_add_div]

theorem toBytes_fromBytes (bs : List Nat) (h : ∀ b ∈ bs, b < 256) :
    toBytes bs.length (fromBytes bs) = bs := by
  induction bs with
  | nil => rfl
  | cons b bs ih =>
    have hb : b < 256 := h b (List.mem_cons_self _ _)
    have hmod : (b + 256 * fromBytes bs) % 256 = b := by
      rw [Nat.add_mul_mod_self_left]
      exact Nat.mod_eq_of_lt hb
    have hdiv : (b + 256 * fromBytes bs) / 256 = fromBytes bs := by
      rw [Nat.add_mul_div_left _ _ (by norm_num), Nat.div_eq_of_lt hb,
        Nat.zero_add]
    simp [toBytes, fromBytes, hmod, hdiv,
      ih fun c hc => h c (List.mem_cons_of_mem _ hc)]

theorem fromBytes_lt (bs : List Nat) (h : ∀ b ∈ bs, b < 256) :
    fromBytes bs < 256 ^ bs.length := by
  induction bs with
  | nil => simp [fromBytes]
  | cons b bs ih =>
    have hb : b < 256 := h b (List.mem_cons_self _ _)
    have hf : fromBytes bs < 256 ^ bs.length :=
      ih fun c hc => h c (List.mem_cons_of_mem _ hc)
    calc fromBytes (b :: bs) = b + 256 * fromBytes bs := rfl
      _ < 256 * (fromBytes bs + 1) := by omega
      _ ≤ 256 * 256 ^ bs.length := Nat.mul_le_mul_left _ hf
      _ = 256 ^ (b :: bs).length := by
          simp [List.length_cons, pow_succ]; ring

theorem swapBytes_lt (w x : Nat) : swapBytes w x < 256 ^ w := by
  have h := fromBytes_lt (toBytes w x).reverse (by simpa using toBytes_lt w x)
  simpa [swapBytes, toBytes_length] using h

theorem swapBytes_swapBytes (w x : Nat) (h : x < 256 ^ w) :
    swapBytes w (swapBytes w x) = x := by
  have hlt : ∀ b ∈ (toBytes w x).reverse, b < 256 := by
    simpa using toBytes_lt w x
  have h1 := toBytes_fromBytes (toBytes w x).reverse hlt
  have hlen : (toBytes w x).reverse.length = w := by simp [toBytes_length]
  rw [hlen] at h1
  unfold swapBytes
  rw [h1, List.reverse_reverse, fromBytes_toBytes w x h]

theorem toBytes_zero (w : Nat) : toBytes w 0 = List.replicate w 0 := by
  induction w with
  | zero => rfl
  | succ w ih => simp [toBytes, ih, List.replicate]

theorem fromBytes_replicate_zero_append (k : Nat) :
    fromBytes (List.replicate k 0 ++ [1]) = 256 ^ k := by
  induction k with
  | zero => simp [fromBytes]
  | succ k ih =>
    have hstep : List.replicate (k + 1) 0 ++ [1]
        = 0 :: (List.replicate k 0 ++ [1]) := by
      simp [List.replicate_succ]
    rw [hstep]
    show 0 + 256 * fromBytes (List.replicate k 0 ++ [1]) = 256 ^ (k + 1)
    rw [ih, pow_succ]
    ring

theorem swapBytes_one_val (w : Nat) (hw : 1 ≤ w) :
    swapBytes w 1 = 256 ^ (w - 1) := by
  obtain ⟨k, rfl⟩ : ∃ k, w = k + 1 := ⟨w - 1, by omega⟩
  simp [swapBytes, toBytes, toBytes_zero, List.reverse_replicate,
    fromBytes_replicate_zero_append]

namespace Endian

/-- Model of `Endian::to_be` for the `w`-byte widths: delegates to the
primitive `to_be`, which is the identity on a big-endian host and a full byte
swap on a little-endian host. -/
def to_be (host : ByteOrder) (w x : Nat) : Nat :=
  match host with
  | ByteOrder.big => x
  | ByteOrder.little => swapBytes w x

/-- Model of `Endian::to_le`: the identity on a little-endian host and a full
byte swap on a big-endian host. -/
def to_le (host : ByteOrder) (w x : Nat) : Nat :=
  match host with
  | ByteOrder.big => swapBytes w x
  | ByteOrder.little => x

/-- Model of `Endian::from_be`: converts a big-endian-ordered value to the
host order, the identity on a big-endian host and a byte swap otherwise. -/
def from_be (host : ByteOrder) (w x : Nat) : Nat :=
  match host with
  | ByteOrder.big => x
  | ByteOrder.little => swapBytes w x

/-- Model of `Endian::from_le`: converts a little-endian-ordered value to the
host order, the identity on a little-endian host and a byte swap otherwise. -/
def from_le (host : ByteOrder) (w x : Nat) : Nat :=
  match host with
  | ByteOrder.big => swapBytes w x
  | ByteOrder.little => x

end Endian

/-- Model of the wrapper `struct BigEndian<T>(T)`: its sole field holds the
bits of a value already arranged in big-endian order. -/
structure BigEndian where
  bits : Nat
deriving DecidableEq

/-- Model of the wrapper `struct LittleEndian<T>(T)`: its sole field holds
the bits of a value already arranged in little-endian order. -/
structure LittleEndian where
  bits : Nat
deriving DecidableEq

/-- Model of `BigEndian::new`: stores `value.to_be()`. -/
def BigEndian.new (host : ByteOrder) (w value : Nat) : BigEndian :=
  ⟨Endian.to_be host w value⟩

/-- Model of `BigEndian::to_native`: applies `T::from_be` to the stored
field. -/
def BigEndian.to_native (s : BigEndian) (host : ByteOrder) (w : Nat) : Nat :=
  Endian.from_be host w s.bits

/-- Model of `BigEndian::to_bits`: the raw stored field. -/
def BigEndian.to_bits (s : BigEndian) : Nat :=
  s.bits

/-- Model of `LittleEndian::new`: stores `value.to_le()`. -/
def LittleEndian.new (host : ByteOrder) (w value : Nat) : LittleEndian :=
  ⟨Endian.to_le host w value⟩

/-- Model of `LittleEndian::to_native`: applies `T::from_le` to the stored
field. -/
def LittleEndian.to_native (s : LittleEndian) (host : ByteOrder) (w : Nat) :
    Nat :=
  Endian.from_le host w s.bits

/-- Model of `LittleEndian::to_bits`: the raw stored field. -/
def LittleEndian.to_bits (s : LittleEndian) : Nat :=
  s.bits

/-- Model of `impl From<T> for BigEndian<T>` (from `impl_traits!`): its body
is `Self::new(value)`. -/
def BigEndian.from_native (host : ByteOrder) (w value : Nat) : BigEndian :=
  BigEndian.new host w value

/-- Model of `impl From<BigEndian<T>> for T` (from `impl_traits!`): its body
is `value.to_native()`. -/
def BigEndian.into_native (s : BigEndian) (host : ByteOrder) (w : Nat) : Nat :=
  s.to_native host w

/-- Model of `impl From<T> for LittleEndian<T>` (from `impl_traits!`): its
body is `Self::new(value)`. -/
def LittleEndian.from_native (host : ByteOrder) (w value : Nat) : LittleEndian :=
  LittleEndian.new host w value

/-- Model of `impl From<LittleEndian<T>> for T` (from `impl_traits!`): its
body is `value.to_native()`. -/
def LittleEndian.into_native (s : LittleEndian) (host : ByteOrder) (w : Nat) :
    Nat :=
  s.to_native host w

theorem swapBytes_width_one (x : Nat) (h : x < 256) : swapBytes 1 x = x := by
  have h1 : toBytes 1 x = [x % 256] := rfl
  simp [swapBytes, h1, fromBytes, Nat.mod_eq_of_lt h]

/-- C1: for every host order, every width and every in-range value `v`,
`BigEndian::new(v).to_native() == v` and
`LittleEndian::new(v).to_native() == v`. -/
theorem round_trip_to_native (host : ByteOrder) (w v : Nat)
    (hv : v < 256 ^ w) :
    (BigEndian.new host w v).to_native host w = v ∧
    (LittleEndian.new host w v).to_native host w = v := by
  cases host <;>
    simp [BigEndian.new, BigEndian.to_native, LittleEndian.new,
      LittleEndian.to_native, Endian.to_be, Endian.to_le, Endian.from_be,
      Endian.from_le, swapBytes_swapBytes w v hv]

/-- Witness for C1 at host little-endian, width 8 bytes, value 12345. -/
theorem round_trip_to_native_witness :
    12345 < 256 ^ 8 ∧
      ((BigEndian.new ByteOrder.little 8 12345).to_native ByteOrder.little 8
          = 12345 ∧
        (LittleEndian.new ByteOrder.little 8 12345).to_native
            ByteOrder.little 8 = 12345) :=
  ⟨by norm_num, round_trip_to_native ByteOrder.little 8 12345 (by norm_num)⟩

/-- C2: the stored bits of a wrapper equal the declared-order byte sequence
of the constructed value: `to_bits` after `new` is `to_be` (resp. `to_le`);
on a little-endian host the big-endian wrapper stores the full byte reversal
while the little-endian wrapper stores the value unchanged, and on a
big-endian host the two swap; concretely `0xFE` at width 8 stores
`0xFE00000000000000` in the big-endian wrapper. -/
theorem to_bits_declared_order (host : ByteOrder) (w v : Nat)
    (hv : v < 256 ^ w) :
    (BigEndian.new host w v).to_bits = Endian.to_be host w v ∧
    (LittleEndian.new host w v).to_bits = Endian.to_le host w v ∧
    (host = ByteOrder.little →
      (BigEndian.new host w v).to_bits = swapBytes w v ∧
      (LittleEndian.new host w v).to_bits = v) ∧
    (host = ByteOrder.big →
      (BigEndian.new host w v).to_bits = v ∧
      (LittleEndian.new host w v).to_bits = swapBytes w v) ∧
    (BigEndian.new ByteOrder.little 8 0xFE).to_bits = 0xFE00000000000000 ∧
    (LittleEndian.new ByteOrder.little 8 0xFE).to_bits = 0xFE := by
  refine ⟨rfl, rfl, ?_, ?_, ?_, rfl⟩
  · rintro rfl
    exact ⟨rfl, rfl⟩
  · rintro rfl
    exact ⟨rfl, rfl⟩
  · decide

/-- Witness for C2 at host little-endian, width 8 bytes, value `0xFE`. -/
theorem to_bits_declared_order_witness :
    0xFE < 256 ^ 8 ∧
      ((BigEndian.new ByteOrder.little 8 0xFE).to_bits
          = Endian.to_be ByteOrder.little 8 0xFE ∧
        (LittleEndian.new ByteOrder.little 8 0xFE).to_bits
          = Endian.to_le ByteOrder.little 8 0xFE ∧
        (ByteOrder.little = ByteOrder.little →
          (BigEndian.new ByteOrder.little 8 0xFE).to_bits = swapBytes 8 0xFE ∧
          (LittleEndian.new ByteOrder.little 8 0xFE).to_bits = 0xFE) ∧
        (ByteOrder.little = ByteOrder.big →
          (BigEndian.new ByteOrder.little 8 0xFE).to_bits = 0xFE ∧
          (LittleEndian.new ByteOrder.little 8 0xFE).to_bits
            = swapBytes 8 0xFE) ∧
        (BigEndian.new ByteOrder.little 8 0xFE).to_bits
          = 0xFE00000000000000 ∧
        (LittleEndian.new ByteOrder.little 8 0xFE).to_bits = 0xFE) :=
  ⟨by norm_num, to_bits_declared_order ByteOrder.little 8 0xFE (by norm_num)⟩

/-- C3: for every host order, width and in-range value, the four capability
operations are mutual inverses through native form:
`from_be(to_be(x)) == x`, `from_le(to_le(x)) == x`, `to_be(from_be(x)) == x`
and `to_le(from_le(x)) == x`. -/
theorem to_from_inverses (host : ByteOrder) (w x : Nat) (hx : x < 256 ^ w) :
    Endian.from_be host w (Endian.to_be host w x) = x ∧
    Endian.from_le host w (Endian.to_le host w x) = x ∧
    Endian.to_be host w (Endian.from_be host w x) = x ∧
    Endian.to_le host w (Endian.from_le host w x) = x := by
  cases host <;>
    simp [Endian.to_be, Endian.to_le, Endian.from_be, Endian.from_le,
      swapBytes_swapBytes w x hx]

/-- Witness for C3 at host little-endian, width 4 bytes, value `0xDEADBEEF`. -/
theorem to_from_inverses_witness :
    0xDEADBEEF < 256 ^ 4 ∧
      (Endian.from_be ByteOrder.little 4
          (Endian.to_be ByteOrder.little 4 0xDEADBEEF) = 0xDEADBEEF ∧
        Endian.from_le ByteOrder.little 4
          (Endian.to_le ByteOrder.little 4 0xDEADBEEF) = 0xDEADBEEF ∧
        Endian.to_be ByteOrder.little 4
          (Endian.from_be ByteOrder.little 4 0xDEADBEEF) = 0xDEADBEEF ∧
        Endian.to_le ByteOrder.little 4
          (Endian.from_le ByteOrder.little 4 0xDEADBEEF) = 0xDEADBEEF) :=
  ⟨by norm_num, to_from_inverses ByteOrder.little 4 0xDEADBEEF (by norm_num)⟩

/-- C4: the `From` conversions are layered exactly on the named functions and
are inverse: `From<T>::from(v)` for a wrapper equals `Wrapper::new(v)`,
`From<Wrapper<T>>::from(w)` for `T` equals `w.to_native()`, and converting a
native value into a wrapper and back through them yields the original
value. -/
theorem from_impls_layered (host : ByteOrder) (w v : Nat) (hv : v < 256 ^ w) :
    BigEndian.from_native host w v = BigEndian.new host w v ∧
    (∀ s : BigEndian, s.into_native host w = s.to_native host w) ∧
    (BigEndian.from_native host w v).into_native host w = v ∧
    LittleEndian.from_native host w v = LittleEndian.new host w v ∧
    (∀ s : LittleEndian, s.into_native host w = s.to_native host w) ∧
    (LittleEndian.from_native host w v).into_native host w = v := by
  refine ⟨rfl, fun s => rfl, ?_, rfl, fun s => rfl, ?_⟩ <;>
  · cases host <;>
      simp [BigEndian.from_native, BigEndian.into_native, BigEndian.new,
        BigEndian.to_native, LittleEndian.from_native,
        LittleEndian.into_native, LittleEndian.new, LittleEndian.to_native,
        Endian.to_be, Endian.to_le, Endian.from_be, Endian.from_le,
        swapBytes_swapBytes w v hv]

/-- Witness for C4 at host little-endian, width 8 bytes, value 12345. -/
theorem from_impls_layered_witness :
    12345 < 256 ^ 8 ∧
      (BigEndian.from_native ByteOrder.little 8 12345
          = BigEndian.new ByteOrder.little 8 12345 ∧
        (∀ s : BigEndian, s.into_native ByteOrder.little 8
          = s.to_native ByteOrder.little 8) ∧
        (BigEndian.from_native ByteOrder.little 8 12345).into_native
            ByteOrder.little 8 = 12345 ∧
        LittleEndian.from_native ByteOrder.little 8 12345
          = LittleEndian.new ByteOrder.little 8 12345 ∧
        (∀ s : LittleEndian, s.into_native ByteOrder.little 8
          = s.to_native ByteOrder.little 8) ∧
        (LittleEndian.from_native ByteOrder.little 8 12345).into_native
            ByteOrder.little 8 = 12345) :=
  ⟨by norm_num, from_impls_layered ByteOrder.little 8 12345 (by norm_num)⟩

/-- C5: equality of wrapper values is bitwise on the stored field: two
same-variant wrapper values are equal iff their raw stored bits are equal,
and two wrappers constructed from the same native value compare equal.  (The
big-endian and little-endian wrappers are distinct types in the model, so a
cross-variant comparison is not even well-typed.) -/
theorem eq_iff_bits :
    (∀ a b : BigEndian, a = b ↔ a.to_bits = b.to_bits) ∧
    (∀ a b : LittleEndian, a = b ↔ a.to_bits = b.to_bits) ∧
    (∀ (host : ByteOrder) (w v : Nat),
      BigEndian.new host w v = BigEndian.new host w v) ∧
    (∀ (host : ByteOrder) (w v : Nat),
      LittleEndian.new host w v = LittleEndian.new host w v) := by
  refine ⟨?_, ?_, fun _ _ _ => rfl, fun _ _ _ => rfl⟩
  · rintro ⟨a⟩ ⟨b⟩
    simp [BigEndian.to_bits]
  · rintro ⟨a⟩ ⟨b⟩
    simp [LittleEndian.to_bits]

/-- C6: for widths of at least one byte, `to_be` and `to_le` agree on every
in-range value exactly when the width is one byte (8 bits); in general the
two differ by the full byte reversal of the value. -/
theorem to_be_eq_to_le_iff (host : ByteOrder) (w : Nat) (hw : 1 ≤ w) :
    ((∀ x < 256 ^ w, Endian.to_be host w x = Endian.to_le host w x)
        ↔ w = 1) ∧
    (∀ x < 256 ^ w,
      Endian.to_le host w x = swapBytes w (Endian.to_be host w x)) := by
  constructor
  · constructor
    · intro hall
      by_contra hne
      have h1 : (1 : Nat) < 256 ^ w := by
        calc (1 : Nat) < 256 := by norm_num
          _ = 256 ^ 1 := (pow_one 256).symm
          _ ≤ 256 ^ w := Nat.pow_le_pow_right (by norm_num) hw
      have heq := hall 1 h1
      have hswap : swapBytes w 1 = 256 ^ (w - 1) := swapBytes_one_val w hw
      have hbig : (256 : Nat) ≤ 256 ^ (w - 1) := by
        calc (256 : Nat) = 256 ^ 1 := (pow_one 256).symm
          _ ≤ 256 ^ (w - 1) := Nat.pow_le_pow_right (by norm_num) (by omega)
      cases host with
      | big =>
        have h2 : Endian.to_be ByteOrder.big w 1 = 1 := rfl
        have h3 : Endian.to_le ByteOrder.big w 1 = swapBytes w 1 := rfl
        rw [h2, h3, hswap] at heq
        rw [← heq] at hbig
        norm_num at hbig
      | little =>
        have h2 : Endian.to_be ByteOrder.little w 1 = swapBytes w 1 := rfl
        have h3 : Endian.to_le ByteOrder.little w 1 = 1 := rfl
        rw [h2, h3, hswap] at heq
        rw [heq] at hbig
        norm_num at hbig
    · rintro rfl x hx
      have hx' : x < 256 := by simpa using hx
      cases host <;>
        simp [Endian.to_be, Endian.to_le, swapBytes_width_one x hx']
  · intro x hx
    cases host <;>
      simp [Endian.to_be, Endian.to_le, swapBytes_swapBytes w x hx]

/-- Witness for C6 at host little-endian, width 8 bytes. -/
theorem to_be_eq_to_le_iff_witness :
    (1 : Nat) ≤ 8 ∧
      (((∀ x < 256 ^ 8, Endian.to_be ByteOrder.little 8 x
            = Endian.to_le ByteOrder.little 8 x) ↔ (8 : Nat) = 1) ∧
        ∀ x < 256 ^ 8, Endian.to_le ByteOrder.little 8 x
            = swapBytes 8 (Endian.to_be ByteOrder.little 8 x)) :=
  ⟨by norm_num, to_be_eq_to_le_iff ByteOrder.little 8 (by norm_num)⟩

/-- C7: every public operation is a total function over the full value range
of each width: on every in-range input each of `to_be`, `to_le`, `from_be`,
`from_le`, `new`, `to_native`, `to_bits` and both `From` conversions is
defined and yields an in-range result (no failure path exists in the
model). -/
theorem ops_total (host : ByteOrder) (w v : Nat) (hv : v < 256 ^ w) :
    Endian.to_be host w v < 256 ^ w ∧
    Endian.to_le host w v < 256 ^ w ∧
    Endian.from_be host w v < 256 ^ w ∧
    Endian.from_le host w v < 256 ^ w ∧
    (BigEndian.new host w v).to_bits < 256 ^ w ∧
    (BigEndian.new host w v).to_native host w < 256 ^ w ∧
    (LittleEndian.new host w v).to_bits < 256 ^ w ∧
    (LittleEndian.new host w v).to_native host w < 256 ^ w ∧
    (BigEndian.from_native host w v).to_bits < 256 ^ w ∧
    (BigEndian.from_native host w v).into_native host w < 256 ^ w ∧
    (LittleEndian.from_native host w v).to_bits < 256 ^ w ∧
    (LittleEndian.from_native host w v).into_native host w < 256 ^ w := by
  cases host <;>
    simp [Endian.to_be, Endian.to_le, Endian.from_be, Endian.from_le,
      BigEndian.new, BigEndian.to_bits, BigEndian.to_native,
      BigEndian.from_native, BigEndian.into_native, LittleEndian.new,
      LittleEndian.to_bits, LittleEndian.to_native, LittleEndian.from_native,
      LittleEndian.into_native, swapBytes_lt, swapBytes_swapBytes w v hv, hv]

/-- Witness for C7 at host little-endian, width 2 bytes, value `0xABCD`. -/
theorem ops_total_witness :
    0xABCD < 256 ^ 2 ∧
      (Endian.to_be ByteOrder.little 2 0xABCD < 256 ^ 2 ∧
        Endian.to_le ByteOrder.little 2 0xABCD < 256 ^ 2 ∧
        Endian.from_be ByteOrder.little 2 0xABCD < 256 ^ 2 ∧
        Endian.from_le ByteOrder.little 2 0xABCD < 256 ^ 2 ∧
        (BigEndian.new ByteOrder.little 2 0xABCD).to_bits < 256 ^ 2 ∧
        (BigEndian.new ByteOrder.little 2 0xABCD).to_native ByteOrder.little 2
          < 256 ^ 2 ∧
        (LittleEndian.new ByteOrder.little 2 0xABCD).to_bits < 256 ^ 2 ∧
        (LittleEndian.new ByteOrder.little 2 0xABCD).to_native
            ByteOrder.little 2 < 256 ^ 2 ∧
        (BigEndian.from_native ByteOrder.little 2 0xABCD).to_bits < 256 ^ 2 ∧
        (BigEndian.from_native ByteOrder.little 2 0xABCD).into_native
            ByteOrder.little 2 < 256 ^ 2 ∧
        (LittleEndian.from_native ByteOrder.little 2 0xABCD).to_bits
          < 256 ^ 2 ∧
        (LittleEndian.from_native ByteOrder.little 2 0xABCD).into_native
            ByteOrder.little 2 < 256 ^ 2) :=
  ⟨by norm_num, ops_total ByteOrder.little 2 0xABCD (by norm_num)⟩

/-- C10: on every host order and width the to-direction and from-direction
operations coincide pointwise (`to_be = from_be` and `to_le = from_le`), and
hence the stored bits of a freshly constructed wrapper equal the
corresponding `from` operation applied to the native value. -/
theorem to_eq_from (host : ByteOrder) (w x : Nat) :
    Endian.to_be host w x = Endian.from_be host w x ∧
    Endian.to_le host w x = Endian.from_le host w x ∧
    (∀ v, (BigEndian.new host w v).to_bits = Endian.from_be host w v) ∧
    (∀ v, (LittleEndian.new host w v).to_bits = Endian.from_le host w v) := by
  cases host <;> exact ⟨rfl, rfl, fun v => rfl, fun v => rfl⟩

end ByteEndian
